import Mathlib

set_option maxHeartbeats 1000000
set_option maxRecDepth 100000

/-!
Verification development for the APoT (Additive Power-of-Two) quantization
codec and the base data sparsifier of this repository.

The codec operates on floating-point tensors; we embed its real arithmetic
with exact fractions (`F`): an integer numerator together with a positive
denominator, kept unnormalized so that every operation is a plain structural
computation.  Numeric comparison of two fractions is cross-multiplication.
Tensors are embedded as flat lists of their elements (elementwise maps act
positionally, so shape is captured by length).
-/

/-- Exact fraction: numerator `num` and denominator `dpred + 1` (hence the
denominator is always positive and no proof field is needed). -/
structure F where
  num : Int
  dpred : Nat
  deriving DecidableEq, Repr

namespace F

/-- The (always positive) denominator, as an integer. -/
def den (x : F) : Int := (x.dpred : Int) + 1

theorem den_pos (x : F) : 0 < x.den := by
  unfold den; positivity

theorem den_nonneg (x : F) : 0 ≤ x.den := le_of_lt x.den_pos

/-- Embed an integer. -/
def ofInt (n : Int) : F := ⟨n, 0⟩

instance : OfNat F n := ⟨ofInt n⟩

/-- The fraction `1 / 2 ^ e`. -/
def pow2inv (e : Nat) : F := ⟨1, 2 ^ e - 1⟩

/-- Numeric less-or-equal, by cross multiplication (denominators positive). -/
def le (x y : F) : Prop := x.num * y.den ≤ y.num * x.den

/-- Numeric strict order. -/
def lt (x y : F) : Prop := x.num * y.den < y.num * x.den

/-- Numeric equality (two unnormalized fractions can be numerically equal
without being structurally equal). -/
def eqv (x y : F) : Prop := x.num * y.den = y.num * x.den

instance : DecidableRel le := fun x y => by unfold le; infer_instance

instance : DecidableRel lt := fun x y => by unfold lt; infer_instance

instance : DecidableRel eqv := fun x y => by unfold eqv; infer_instance

def add (x y : F) : F :=
  ⟨x.num * y.den + y.num * x.den, x.dpred * y.dpred + x.dpred + y.dpred⟩

def neg (x : F) : F := ⟨-x.num, x.dpred⟩

def sub (x y : F) : F := x.add y.neg

def mul (x y : F) : F :=
  ⟨x.num * y.num, x.dpred * y.dpred + x.dpred + y.dpred⟩

/-- Reciprocal; the reciprocal of a numeric zero is zero (matching the
convention of division in Mathlib fields). -/
def inv (x : F) : F :=
  if 0 < x.num then ⟨x.den, x.num.toNat - 1⟩
  else if x.num < 0 then ⟨-x.den, (-x.num).toNat - 1⟩
  else ⟨0, 0⟩

def div (x y : F) : F := x.mul y.inv

def abs (x : F) : F := ⟨|x.num|, x.dpred⟩

def max (x y : F) : F := if le x y then y else x

/-- Floor of the represented rational number. -/
def floor (x : F) : Int := Int.fdiv x.num x.den

theorem den_add (x y : F) : (x.add y).den = x.den * y.den := by
  simp only [add, den]; push_cast; ring

theorem den_mul (x y : F) : (x.mul y).den = x.den * y.den := by
  simp only [mul, den]; push_cast; ring

theorem le_refl (x : F) : le x x := Int.le_refl _

theorem le_total (x y : F) : le x y ∨ le y x := Int.le_total _ _

theorem le_trans {x y z : F} (h1 : le x y) (h2 : le y z) : le x z := by
  unfold le at *
  have hy := y.den_pos
  have key : x.num * z.den * y.den ≤ z.num * x.den * y.den := by
    nlinarith [x.den_pos, y.den_pos, z.den_pos,
      mul_le_mul_of_nonneg_right h1 z.den_nonneg,
      mul_le_mul_of_nonneg_right h2 x.den_nonneg]
  exact Int.le_of_mul_le_mul_right key hy

theorem eqv_le {x y : F} (h : eqv x y) : le x y := Int.le_of_eq h

theorem eqv_ge {x y : F} (h : eqv x y) : le y x := Int.le_of_eq h.symm

theorem eqv_of_le_of_ge {x y : F} (h1 : le x y) (h2 : le y x) : eqv x y :=
  Int.le_antisymm h1 h2

theorem le_of_not_le {x y : F} (h : ¬ le x y) : le y x :=
  (le_total y x).resolve_right h

theorem lt_iff_not_le {x y : F} : lt x y ↔ ¬ le y x := by
  unfold lt le
  omega

theorem le_iff_lt_or_eqv {x y : F} : le x y ↔ lt x y ∨ eqv x y := by
  unfold le lt eqv
  omega

/-- A fraction is numerically zero exactly when its numerator is zero. -/
theorem eqv_zero_iff {x : F} : eqv x (ofInt 0) ↔ x.num = 0 := by
  unfold eqv ofInt den
  simp

theorem num_add_zero {x y : F} (hx : x.num = 0) (hy : y.num = 0) :
    (x.add y).num = 0 := by
  simp [add, hx, hy]

theorem num_mul_zero_left {x y : F} (hx : x.num = 0) : (x.mul y).num = 0 := by
  simp [mul, hx]

theorem num_sub_zero {x y : F} (hx : x.num = 0) (hy : y.num = 0) :
    (x.sub y).num = 0 := by
  simp [sub, add, neg, hx, hy]

theorem num_abs_zero {x : F} (hx : x.num = 0) : x.abs.num = 0 := by
  simp [abs, hx]

theorem num_max_zero {x y : F} (hx : x.num = 0) (hy : y.num = 0) :
    (max x y).num = 0 := by
  unfold max
  split <;> assumption

theorem not_lt_zero_zero {x y : F} (hx : x.num = 0) (hy : y.num = 0) :
    ¬ lt x y := by
  unfold lt
  simp [hx, hy]

theorem floor_of_num_zero {x : F} (hx : x.num = 0) : x.floor = 0 := by
  simp [floor, hx]

theorem lt_of_num_zero_pos {x y : F} (hx : x.num = 0) (hy : 0 < y.num) :
    lt x y := by
  unfold lt
  rw [hx, zero_mul]
  exact mul_pos hy x.den_pos

end F

namespace APoT

/-- Error kinds of the APoT codec (spec section 7). -/
inductive APoTError where
  | InvalidConfiguration
  | InvalidCalibration
  | DomainError
  | IndexOutOfRange
  | NotSupported
  deriving DecidableEq, Repr

/-- Modelled from the spec: the level-generation source (`APoTObserver` /
`generate_levels`) is not in the excerpt, only its tests are.  Spec 4.1: each
of the `n = b/k` additive positions contributes one of `2^k` power-of-two
values (including zero) at a position-dependent exponent offset.  Position `i`
offers `0` together with `2 ^ (-(i + j*n))` for `j = 0 .. 2^k - 2`. -/
def termChoices (n i k : Nat) : List F :=
  F.ofInt 0 :: (List.range (2 ^ k - 1)).map (fun j => F.pow2inv (i + j * n))

/-- Modelled from the spec: the term-choice sets of all `n = b/k` positions. -/
def termSets (b k : Nat) : List (List F) :=
  (List.range (b / k)).map (fun i => termChoices (b / k) i k)

/-- Cartesian sum of a list of choice sets (spec 4.1): every way of picking
one term per position, summed; earlier positions vary slowest. -/
def cartSums : List (List F) → List F
  | [] => [F.ofInt 0]
  | ts :: rest => ts.flatMap (fun t => (cartSums rest).map (fun s => t.add s))

/-- Raw levels paired with their index-encoding (the enumeration rank of the
combination that produced them, spec 4.1's "index-encoding"). -/
def rawPairs (b k : Nat) : List (F × Nat) :=
  (cartSums (termSets b k)).enum.map (fun p => (p.2, p.1))

/-- Sorting order of spec 4.1: non-decreasing by level value, ties broken
toward the smallest index-encoding. -/
def levelLE (p q : F × Nat) : Prop :=
  F.le p.1 q.1 ∧ (F.le q.1 p.1 → p.2 ≤ q.2)

instance : DecidableRel levelLE := fun p q => by unfold levelLE; infer_instance

instance : IsTotal (F × Nat) levelLE := by
  constructor
  intro p q
  by_cases hpq : F.le p.1 q.1
  · by_cases hqp : F.le q.1 p.1
    · rcases Nat.le_total p.2 q.2 with h | h
      · exact Or.inl ⟨hpq, fun _ => h⟩
      · exact Or.inr ⟨hqp, fun _ => h⟩
    · exact Or.inl ⟨hpq, fun h => absurd h hqp⟩
  · exact Or.inr ⟨F.le_of_not_le hpq, fun h => absurd h hpq⟩

instance : IsTrans (F × Nat) levelLE := by
  constructor
  rintro p q r ⟨hpq, htie1⟩ ⟨hqr, htie2⟩
  refine ⟨F.le_trans hpq hqr, fun hrp => ?_⟩
  exact Nat.le_trans (htie1 (F.le_trans hqr hrp)) (htie2 (F.le_trans hrp hpq))

/-- The `(level, encoding)` pairs in their final sorted order. -/
def sortedPairs (b k : Nat) : List (F × Nat) :=
  List.insertionSort levelLE (rawPairs b k)

/-- Modelled from the spec: `generate_levels(b, k, signed)` (spec 4.1).  The
configuration is rejected with `InvalidConfiguration` unless `b` and `k` are
positive and `k` divides `b`; otherwise the `2^b` cartesian sums are emitted
in sorted order with the positional index set `0 .. 2^b - 1`.  The mirrored
construction for `signed = true` is an explicit open question of the spec
(sections 4.1 and 9, never exercised by the calibration paths), so the model
carries the flag without branching on it. -/
def generate_levels (b k : Nat) (signed : Bool) :
    Except APoTError (List F × List Nat) :=
  if b = 0 ∨ k = 0 ∨ b % k ≠ 0 then .error .InvalidConfiguration
  else .ok ((sortedPairs b k).map Prod.fst, List.range (2 ^ b))

/-- Largest level (levels are nonnegative, so a fold from zero). -/
def maxLevel (levels : List F) : F := levels.foldl F.max (F.ofInt 0)

/-- Modelled from the spec: the Observer's `calculate_qparams` (spec 4.2):
rejects a negative `max_val` with `InvalidCalibration`, otherwise returns the
scale mapping the largest level to `max_val`, the quantization levels
expressed in the units of the original tensor, and the level indices. -/
def calculate_qparams (max_val : F) (b k : Nat) (signed : Bool) :
    Except APoTError (F × List F × List Nat) :=
  if F.lt max_val (F.ofInt 0) then .error .InvalidCalibration
  else do
    let (levels, indices) ← generate_levels b k signed
    let scale := F.div max_val (maxLevel levels)
    .ok (scale, levels.map (fun l => l.mul scale), indices)

/-- Maximum element of a tensor (tensor elements are nonnegative in the
unsigned mode, spec 4.3, so a fold from zero). -/
def maxVal (xs : List F) : F := xs.foldl F.max (F.ofInt 0)

/-- One step of the nearest-level scan: index of the level minimizing the
absolute difference to `x`, ties broken toward the lower index (spec 4.3). -/
def nearestAux (x : F) : List F → Nat → F → Nat → Nat
  | [], _, _, bi => bi
  | l :: ls, i, bv, bi =>
    if F.lt ((x.sub l).abs) ((x.sub bv).abs) then nearestAux x ls (i + 1) l i
    else nearestAux x ls (i + 1) bv bi

/-- Index of the nearest level in a level table (spec 4.3). -/
def nearestLevelIndex (levels : List F) (x : F) : Nat :=
  match levels with
  | [] => 0
  | l :: ls => nearestAux x ls 1 l 0

/-- Modelled from the spec: `quantize_APoT` (spec 4.3): auto-calibrates from
the tensor's own maximum, then writes for every element the index of its
nearest quantization level. -/
def quantize_APoT (xs : List F) (b k : Nat) : Except APoTError (List Nat) := do
  let (_, qlevels, _) ← calculate_qparams (maxVal xs) b k false
  .ok (xs.map (fun x => nearestLevelIndex qlevels x))

/-- Maximum element of an integer tensor (fold from zero). -/
def maxValNat (t : List Nat) : Nat := t.foldl Max.max 0

/-- Modelled from the spec: `dequantize` (spec 4.3): every element must be a
valid index (else `IndexOutOfRange`); calibration is recomputed from the
maximum of the integer input, and each element is mapped through the
positional IndexSet-to-LevelSet lookup. -/
def dequantize (t : List Nat) (b k : Nat) : Except APoTError (List F) := do
  if t.all (fun v => v < 2 ^ b) then
    let (_, qlevels, indices) ← calculate_qparams (F.ofInt (maxValNat t)) b k false
    .ok (t.map (fun v => qlevels.getD (indices.indexOf v) (F.ofInt 0)))
  else .error .IndexOutOfRange

/-- Modelled from the spec: `q_apot_alpha` is explicitly unimplemented; any
call fails with `NotSupported` (spec 4.3); `b`, `k`, `signed` stand for the
instance state of the tensor object. -/
def q_apot_alpha (b k : Nat) (signed : Bool) : Except APoTError F :=
  .error .NotSupported

/-- Round half to even, the rounding mode of the reference uniform quantizer
`torch.quantize_per_tensor` (an external oracle, spec section 6). -/
def roundHalfToEven (x : F) : Int :=
  if F.lt (x.sub (F.ofInt x.floor)) ⟨1, 1⟩ then x.floor
  else if F.lt ⟨1, 1⟩ (x.sub (F.ofInt x.floor)) then x.floor + 1
  else if x.floor % 2 = 0 then x.floor else x.floor + 1

/-- The reference uniform quantizer: `quantize_per_tensor(xs, scale,
zero_point, quint8).int_repr()`, clamping to the 8-bit range. -/
def quantize_per_tensor (xs : List F) (scale : F) (zero_point : Int) :
    List Nat :=
  xs.map (fun x =>
    (Max.max 0 (Min.min 255 (zero_point + roundHalfToEven (x.div scale)))).toNat)

end APoT

namespace APoT

theorem num_mul (x y : F) : (x.mul y).num = x.num * y.num := rfl

theorem length_termChoices (n i k : Nat) : (termChoices n i k).length = 2 ^ k := by
  have h : 1 ≤ 2 ^ k := Nat.one_le_two_pow
  simp [termChoices]
  omega

theorem sum_map_const {α : Type} (l : List α) (c : Nat) :
    (l.map (fun _ => c)).sum = l.length * c := by
  induction l with
  | nil => simp
  | cons a l ih => simp [ih, Nat.succ_mul, Nat.add_comm]

theorem prod_map_const {α : Type} (l : List α) (c : Nat) :
    (l.map (fun _ => c)).prod = c ^ l.length := by
  induction l with
  | nil => simp
  | cons a l ih => simp [ih, pow_succ, Nat.mul_comm]

theorem length_cartSums (L : List (List F)) :
    (cartSums L).length = (L.map List.length).prod := by
  induction L with
  | nil => simp [cartSums]
  | cons ts rest ih =>
    simp only [cartSums, List.length_flatMap, List.map_cons, List.prod_cons,
      Function.comp_def]
    have hfun : ts.map (fun t => ((cartSums rest).map (fun s => t.add s)).length)
        = ts.map (fun _ => (cartSums rest).length) := by
      refine List.map_congr_left ?_
      intro t _
      simp
    rw [hfun, sum_map_const, ih]

theorem length_rawPairs (b k : Nat) (hk : 0 < k) (hdvd : b % k = 0) :
    (rawPairs b k).length = 2 ^ b := by
  unfold rawPairs
  rw [List.length_map, List.enum_length, length_cartSums]
  unfold termSets
  rw [List.map_map]
  have hconst : ((List.range (b / k)).map (List.length ∘ fun i => termChoices (b / k) i k))
      = (List.range (b / k)).map (fun _ => 2 ^ k) := by
    refine List.map_congr_left ?_
    intro i _
    simp [length_termChoices]
  rw [hconst, prod_map_const, List.length_range, ← pow_mul]
  congr 1
  exact Nat.mul_div_cancel' (Nat.dvd_of_mod_eq_zero hdvd)

theorem length_sortedPairs (b k : Nat) (hk : 0 < k) (hdvd : b % k = 0) :
    (sortedPairs b k).length = 2 ^ b := by
  unfold sortedPairs
  rw [List.length_insertionSort, length_rawPairs b k hk hdvd]

theorem sorted_sortedPairs (b k : Nat) : (sortedPairs b k).Sorted levelLE :=
  List.sorted_insertionSort levelLE (rawPairs b k)

theorem nodup_encodings (b k : Nat) : ((sortedPairs b k).map Prod.snd).Nodup := by
  have hperm : List.Perm (sortedPairs b k) (rawPairs b k) :=
    List.perm_insertionSort levelLE (rawPairs b k)
  refine ((hperm.map Prod.snd).nodup_iff).mpr ?_
  unfold rawPairs
  rw [List.map_map]
  exact List.nodup_enum_map_fst _

/-- C3: every call to `q_apot_alpha`, whatever the instance state `(b, k,
signed)`, fails with the `NotSupported` error and produces no other result. -/
theorem q_apot_alpha_not_supported (b k : Nat) (signed : Bool) :
    q_apot_alpha b k signed = .error APoTError.NotSupported := rfl

/-- C4: `generate_levels` fails with `InvalidConfiguration` whenever `b = 0`,
`k = 0` or `b % k ≠ 0` (so it never returns a level set for such inputs), and
succeeds for positive `b`, `k` with `b` divisible by `k`. -/
theorem generate_levels_config_validation (b k : Nat) (signed : Bool) :
    ((b = 0 ∨ k = 0 ∨ b % k ≠ 0) →
      generate_levels b k signed = .error APoTError.InvalidConfiguration) ∧
    (0 < b → 0 < k → b % k = 0 →
      generate_levels b k signed =
        .ok ((sortedPairs b k).map Prod.fst, List.range (2 ^ b))) := by
  constructor
  · intro h
    unfold generate_levels
    rw [if_pos h]
  · intro hb hk hdvd
    unfold generate_levels
    rw [if_neg (by omega)]

/-- C4 witness: the boundary input `b = 0` is rejected and the tested
configuration `b = 4, k = 2` is accepted. -/
theorem generate_levels_config_validation_witness :
    generate_levels 0 2 false = .error APoTError.InvalidConfiguration ∧
    generate_levels 4 2 false =
      .ok ((sortedPairs 4 2).map Prod.fst, List.range (2 ^ 4)) :=
  ⟨(generate_levels_config_validation 0 2 false).1 (by decide),
   (generate_levels_config_validation 4 2 false).2 (by decide) (by decide)
     (by decide)⟩

/-- C6: `generate_levels` is deterministic — two calls with identical
arguments return identical LevelSet/IndexSet pairs (the embedding is a pure
function of `(b, k, signed)`, with no hidden state). -/
theorem generate_levels_deterministic (b₁ k₁ : Nat) (s₁ : Bool)
    (b₂ k₂ : Nat) (s₂ : Bool) (h : (b₁, k₁, s₁) = (b₂, k₂, s₂)) :
    generate_levels b₁ k₁ s₁ = generate_levels b₂ k₂ s₂ := by
  injection h with hb h'
  injection h' with hk hs
  subst hb; subst hk; subst hs
  rfl

/-- C6 witness: two calls at the tested configuration `b = 4, k = 2` agree. -/
theorem generate_levels_deterministic_witness :
    generate_levels 4 2 false = generate_levels 4 2 false :=
  generate_levels_deterministic 4 2 false 4 2 false rfl

/-- C5: for every valid configuration, `generate_levels` returns exactly
`2^b` levels in non-decreasing numeric order, the internal sort breaks ties
between numerically equal levels toward the smaller index-encoding, and the
IndexSet is the dense positional rank `0 .. 2^b - 1`. -/
theorem generate_levels_sorted_dense (b k : Nat) (signed : Bool)
    (hb : 0 < b) (hk : 0 < k) (hdvd : b % k = 0) :
    ∃ levels indices,
      generate_levels b k signed = .ok (levels, indices) ∧
      levels.length = 2 ^ b ∧
      levels.Sorted F.le ∧
      (sortedPairs b k).Pairwise (fun p q => F.eqv p.1 q.1 → p.2 < q.2) ∧
      indices = List.range (2 ^ b) ∧
      indices.length = levels.length := by
  refine ⟨(sortedPairs b k).map Prod.fst, List.range (2 ^ b),
    (generate_levels_config_validation b k signed).2 hb hk hdvd,
    ?_, ?_, ?_, rfl, ?_⟩
  · rw [List.length_map, length_sortedPairs b k hk hdvd]
  · exact (sorted_sortedPairs b k).map Prod.fst (fun p q hpq => hpq.1)
  · have hsorted : (sortedPairs b k).Pairwise levelLE := sorted_sortedPairs b k
    have hne : (sortedPairs b k).Pairwise (fun p q => p.2 ≠ q.2) :=
      (List.pairwise_map).mp (nodup_encodings b k)
    refine (hsorted.and hne).imp ?_
    rintro p q ⟨⟨hle, htie⟩, hne2⟩ heqv
    exact Nat.lt_of_le_of_ne (htie (F.eqv_ge heqv)) hne2
  · rw [List.length_range, List.length_map, length_sortedPairs b k hk hdvd]

/-- C5 witness: the property at the tested configuration `b = 4, k = 2`. -/
theorem generate_levels_sorted_dense_witness :
    ∃ levels indices,
      generate_levels 4 2 false = .ok (levels, indices) ∧
      levels.length = 2 ^ 4 ∧
      levels.Sorted F.le ∧
      (sortedPairs 4 2).Pairwise (fun p q => F.eqv p.1 q.1 → p.2 < q.2) ∧
      indices = List.range (2 ^ 4) ∧
      indices.length = levels.length :=
  generate_levels_sorted_dense 4 2 false (by decide) (by decide) (by decide)

end APoT

namespace APoT

theorem le_zero_foldl_max (xs : List F) (z : F) (hz : F.le (F.ofInt 0) z) :
    F.le (F.ofInt 0) (xs.foldl F.max z) := by
  induction xs generalizing z with
  | nil => simpa [List.foldl] using hz
  | cons x xs ih =>
    refine ih (F.max z x) ?_
    unfold F.max
    split
    case isTrue h => exact F.le_trans hz h
    case isFalse h => exact hz

theorem not_maxVal_lt_zero (xs : List F) : ¬ F.lt (maxVal xs) (F.ofInt 0) :=
  fun hlt =>
    (F.lt_iff_not_le.mp hlt) (le_zero_foldl_max xs (F.ofInt 0) (F.le_refl _))

theorem nearestAux_lt (x : F) : ∀ (ls : List F) (i : Nat) (bv : F) (bi : Nat),
    bi < i → nearestAux x ls i bv bi < i + ls.length := by
  intro ls
  induction ls with
  | nil =>
    intro i bv bi h
    simpa [nearestAux] using h
  | cons l ls ih =>
    intro i bv bi h
    rw [List.length_cons]
    simp only [nearestAux]
    split
    · have h2 := ih (i + 1) l i (Nat.lt_succ_self i)
      omega
    · have h2 := ih (i + 1) bv bi (by omega)
      omega

theorem nearestLevelIndex_lt (levels : List F) (x : F) (h : levels ≠ []) :
    nearestLevelIndex levels x < levels.length := by
  cases levels with
  | nil => exact absurd rfl h
  | cons l ls =>
    have h2 := nearestAux_lt x ls 1 l 0 (by omega)
    rw [List.length_cons]
    simp only [nearestLevelIndex]
    omega

/-- C7: `quantize_APoT` preserves the tensor's shape (elementwise, so the
flattened length), and every emitted element is an index below `2^b`, hence
fits the smallest unsigned container for `b` bits — for `b ≤ 8` an 8-bit
unsigned value. -/
theorem quantize_shape_dtype (xs : List F) (b k : Nat)
    (hb : 0 < b) (hk : 0 < k) (hdvd : b % k = 0) :
    ∃ out, quantize_APoT xs b k = .ok out ∧
      out.length = xs.length ∧
      ∀ v ∈ out, v < 2 ^ b ∧ (b ≤ 8 → v < 2 ^ 8) := by
  have hgen := (generate_levels_config_validation b k false).2 hb hk hdvd
  have hmax := not_maxVal_lt_zero xs
  have hcq : calculate_qparams (maxVal xs) b k false =
      .ok (F.div (maxVal xs) (maxLevel ((sortedPairs b k).map Prod.fst)),
        ((sortedPairs b k).map Prod.fst).map
          (fun l => l.mul (F.div (maxVal xs)
            (maxLevel ((sortedPairs b k).map Prod.fst)))),
        List.range (2 ^ b)) := by
    unfold calculate_qparams
    rw [if_neg hmax, hgen]
    rfl
  have hq : quantize_APoT xs b k =
      .ok (xs.map (fun x => nearestLevelIndex
        (((sortedPairs b k).map Prod.fst).map
          (fun l => l.mul (F.div (maxVal xs)
            (maxLevel ((sortedPairs b k).map Prod.fst))))) x)) := by
    unfold quantize_APoT
    rw [hcq]
    rfl
  refine ⟨_, hq, List.length_map _ _, ?_⟩
  intro v hv
  obtain ⟨x, hx, rfl⟩ := List.mem_map.mp hv
  have hlen : (((sortedPairs b k).map Prod.fst).map
      (fun l => l.mul (F.div (maxVal xs)
        (maxLevel ((sortedPairs b k).map Prod.fst))))).length = 2 ^ b := by
    rw [List.length_map, List.length_map, length_sortedPairs b k hk hdvd]
  have hne : (((sortedPairs b k).map Prod.fst).map
      (fun l => l.mul (F.div (maxVal xs)
        (maxLevel ((sortedPairs b k).map Prod.fst))))) ≠ [] := by
    refine List.ne_nil_of_length_pos ?_
    rw [hlen]
    positivity
  have hbound := nearestLevelIndex_lt _ x hne
  rw [hlen] at hbound
  exact ⟨hbound, fun h8 =>
    lt_of_lt_of_le hbound (Nat.pow_le_pow_right (by norm_num) h8)⟩

/-- C7 witness: the property at a concrete tensor and the tested `b = 4,
k = 2` configuration. -/
theorem quantize_shape_dtype_witness :
    ∃ out, quantize_APoT [⟨1, 1⟩, ⟨3, 3⟩] 4 2 = .ok out ∧
      out.length = ([⟨1, 1⟩, ⟨3, 3⟩] : List F).length ∧
      ∀ v ∈ out, v < 2 ^ 4 ∧ (4 ≤ 8 → v < 2 ^ 8) :=
  quantize_shape_dtype [⟨1, 1⟩, ⟨3, 3⟩] 4 2 (by decide) (by decide) (by decide)

theorem indexOf_range {v n : Nat} (h : v < n) : (List.range n).indexOf v = v := by
  have hlt : v < (List.range n).length := by simpa using h
  have h2 := List.indexOf_getElem (List.nodup_range n) v hlt
  simpa using h2

/-- C2: for every integer tensor whose elements are valid indices below
`2^b`, `dequantize` maps each element positionally through the Observer's
calibration tables: the output at position `p` equals the quantized level at
the position where the level indices contain the input element. -/
theorem dequantize_positional_lookup (t : List Nat) (b k : Nat)
    (hb : 0 < b) (hk : 0 < k) (hdvd : b % k = 0)
    (hrange : ∀ v ∈ t, v < 2 ^ b) :
    ∃ scale qlevels indices,
      calculate_qparams (F.ofInt (maxValNat t)) b k false =
        .ok (scale, qlevels, indices) ∧
      ∃ out, dequantize t b k = .ok out ∧
        out.length = t.length ∧
        ∀ p, p < t.length → ∀ j, j < indices.length →
          indices.getD j 0 = t.getD p 0 →
          out.getD p (F.ofInt 0) = qlevels.getD j (F.ofInt 0) := by
  have hgen := (generate_levels_config_validation b k false).2 hb hk hdvd
  have hmax : ¬ F.lt (F.ofInt (maxValNat t)) (F.ofInt 0) := by
    unfold F.lt F.ofInt F.den
    simp
  have hcq : calculate_qparams (F.ofInt (maxValNat t)) b k false =
      .ok (F.div (F.ofInt (maxValNat t)) (maxLevel ((sortedPairs b k).map Prod.fst)),
        ((sortedPairs b k).map Prod.fst).map
          (fun l => l.mul (F.div (F.ofInt (maxValNat t))
            (maxLevel ((sortedPairs b k).map Prod.fst)))),
        List.range (2 ^ b)) := by
    unfold calculate_qparams
    rw [if_neg hmax, hgen]
    rfl
  have hall : t.all (fun v => v < 2 ^ b) = true := by
    rw [List.all_eq_true]
    intro v hv
    exact decide_eq_true (hrange v hv)
  have hdq : dequantize t b k =
      .ok (t.map (fun v =>
        (((sortedPairs b k).map Prod.fst).map
          (fun l => l.mul (F.div (F.ofInt (maxValNat t))
            (maxLevel ((sortedPairs b k).map Prod.fst))))).getD
          ((List.range (2 ^ b)).indexOf v) (F.ofInt 0))) := by
    unfold dequantize
    rw [if_pos hall, hcq]
    rfl
  refine ⟨_, _, _, hcq, _, hdq, List.length_map _ _, ?_⟩
  intro p hp j hj hidx
  rw [List.length_range] at hj
  rw [List.getD_eq_getElem _ 0 (by simpa using hj), List.getElem_range] at hidx
  have hplen : p < (t.map (fun v =>
      (((sortedPairs b k).map Prod.fst).map
        (fun l => l.mul (F.div (F.ofInt (maxValNat t))
          (maxLevel ((sortedPairs b k).map Prod.fst))))).getD
        ((List.range (2 ^ b)).indexOf v) (F.ofInt 0))).length := by
    simpa using hp
  rw [List.getD_eq_getElem _ _ hplen, List.getElem_map]
  rw [List.getD_eq_getElem _ 0 hp] at hidx
  rw [hidx, indexOf_range (hrange _ (List.getElem_mem hp))]

/-- C2 witness: a concrete integer tensor at the tested `b = 4, k = 2`
configuration. -/
theorem dequantize_positional_lookup_witness :
    ∃ scale qlevels indices,
      calculate_qparams (F.ofInt (maxValNat [0, 5, 15])) 4 2 false =
        .ok (scale, qlevels, indices) ∧
      ∃ out, dequantize [0, 5, 15] 4 2 = .ok out ∧
        out.length = ([0, 5, 15] : List Nat).length ∧
        ∀ p, p < ([0, 5, 15] : List Nat).length → ∀ j, j < indices.length →
          indices.getD j 0 = ([0, 5, 15] : List Nat).getD p 0 →
          out.getD p (F.ofInt 0) = qlevels.getD j (F.ofInt 0) :=
  dequantize_positional_lookup [0, 5, 15] 4 2 (by decide) (by decide)
    (by decide) (by decide)

end APoT

theorem F.num_div_zero_left {x y : F} (hx : x.num = 0) : (x.div y).num = 0 :=
  F.num_mul_zero_left hx

namespace APoT

theorem num_foldl_max_zero (xs : List F) (z : F) (hz : z.num = 0)
    (hxs : ∀ x ∈ xs, x.num = 0) : (xs.foldl F.max z).num = 0 := by
  induction xs generalizing z with
  | nil => simpa using hz
  | cons x xs ih =>
    exact ih (F.max z x) (F.num_max_zero hz (hxs x (List.mem_cons_self _ _)))
      (fun a ha => hxs a (List.mem_cons_of_mem _ ha))

theorem nearestAux_zero (x : F) (hx : x.num = 0) :
    ∀ (ls : List F) (i : Nat) (bv : F) (bi : Nat),
      (∀ l ∈ ls, l.num = 0) → bv.num = 0 → nearestAux x ls i bv bi = bi := by
  intro ls
  induction ls with
  | nil =>
    intro i bv bi _ _
    rfl
  | cons l ls ih =>
    intro i bv bi hl hbv
    simp only [nearestAux]
    rw [if_neg]
    · exact ih (i + 1) bv bi (fun a ha => hl a (List.mem_cons_of_mem _ ha)) hbv
    · exact F.not_lt_zero_zero
        (F.num_abs_zero (F.num_sub_zero hx (hl l (List.mem_cons_self _ _))))
        (F.num_abs_zero (F.num_sub_zero hx hbv))

theorem nearestLevelIndex_zero (levels : List F) (x : F) (hx : x.num = 0)
    (hl : ∀ l ∈ levels, l.num = 0) : nearestLevelIndex levels x = 0 := by
  cases levels with
  | nil => rfl
  | cons l ls =>
    simp only [nearestLevelIndex]
    exact nearestAux_zero x hx ls 1 l 0
      (fun a ha => hl a (List.mem_cons_of_mem _ ha)) (hl l (List.mem_cons_self _ _))

theorem roundHTE_zero (y : F) (hy : y.num = 0) : roundHalfToEven y = 0 := by
  unfold roundHalfToEven
  have hr : (y.sub (F.ofInt y.floor)).num = 0 := by
    rw [F.floor_of_num_zero hy]
    exact F.num_sub_zero hy rfl
  have hc : F.lt (y.sub (F.ofInt y.floor)) ⟨1, 1⟩ :=
    F.lt_of_num_zero_pos hr (by decide)
  rw [if_pos hc, F.floor_of_num_zero hy]

/-- C1 counterexample: a length-1 tensor with the single element `3/4`
(inside `[0, 1)`), quantized at the tested `b = 4, k = 2` configuration: the
spec's own nearest-level algorithm (4.3) with auto-calibration maps `3/4` to
the top level, index `15`, while the reference uniform quantizer
`quantize_per_tensor(scale = 1.0, zero_point = 0)` rounds it to `1` — so the
two codecs do not agree element-wise on `[0, 1)` tensors. -/
theorem quantize_vs_uniform_counterexample :
    quantize_APoT [⟨3, 3⟩] 4 2 = .ok [15] ∧
    quantize_per_tensor [⟨3, 3⟩] (F.ofInt 1) 0 = [1] ∧
    quantize_APoT [⟨3, 3⟩] 4 2 ≠
      .ok (quantize_per_tensor [⟨3, 3⟩] (F.ofInt 1) 0) := by
  refine ⟨rfl, rfl, ?_⟩
  intro h
  rw [show quantize_per_tensor [⟨3, 3⟩] (F.ofInt 1) 0 = [1] from rfl,
    show quantize_APoT [⟨3, 3⟩] 4 2 = .ok [15] from rfl] at h
  simp at h

/-- C1 amended: the element-wise agreement between `quantize_APoT` and the
uniform reference quantizer (scale `1.0`, zero point `0`) holds for tensors
all of whose elements are numerically zero (then both sides emit index `0`
everywhere), for every valid configuration — but not for general tensors
with values in `[0, 1)`. -/
theorem quantize_vs_uniform_zero_tensor (xs : List F) (b k : Nat)
    (hb : 0 < b) (hk : 0 < k) (hdvd : b % k = 0)
    (hzero : ∀ x ∈ xs, F.eqv x (F.ofInt 0)) :
    quantize_APoT xs b k = .ok (quantize_per_tensor xs (F.ofInt 1) 0) := by
  have hnum : ∀ x ∈ xs, x.num = 0 := fun x hx => F.eqv_zero_iff.mp (hzero x hx)
  have hgen := (generate_levels_config_validation b k false).2 hb hk hdvd
  have hmax := not_maxVal_lt_zero xs
  have hmaxnum : (maxVal xs).num = 0 := num_foldl_max_zero xs (F.ofInt 0) rfl hnum
  have hcq : calculate_qparams (maxVal xs) b k false =
      .ok (F.div (maxVal xs) (maxLevel ((sortedPairs b k).map Prod.fst)),
        ((sortedPairs b k).map Prod.fst).map
          (fun l => l.mul (F.div (maxVal xs)
            (maxLevel ((sortedPairs b k).map Prod.fst)))),
        List.range (2 ^ b)) := by
    unfold calculate_qparams
    rw [if_neg hmax, hgen]
    rfl
  have hq : quantize_APoT xs b k =
      .ok (xs.map (fun x => nearestLevelIndex
        (((sortedPairs b k).map Prod.fst).map
          (fun l => l.mul (F.div (maxVal xs)
            (maxLevel ((sortedPairs b k).map Prod.fst))))) x)) := by
    unfold quantize_APoT
    rw [hcq]
    rfl
  rw [hq]
  refine congrArg Except.ok ?_
  unfold quantize_per_tensor
  refine List.map_congr_left ?_
  intro x hx
  have hx0 := hnum x hx
  have hscale : (F.div (maxVal xs)
      (maxLevel ((sortedPairs b k).map Prod.fst))).num = 0 :=
    F.num_div_zero_left hmaxnum
  have hQ : ∀ l ∈ ((sortedPairs b k).map Prod.fst).map
      (fun l => l.mul (F.div (maxVal xs)
        (maxLevel ((sortedPairs b k).map Prod.fst)))), l.num = 0 := by
    intro q hq2
    obtain ⟨l, _, rfl⟩ := List.mem_map.mp hq2
    rw [num_mul, hscale, mul_zero]
  rw [nearestLevelIndex_zero _ x hx0 hQ,
    roundHTE_zero _ (F.num_div_zero_left hx0)]
  rfl

/-- C1 amended witness: a concrete tensor whose single element is the
(unnormalized) numeric zero `0/6`, at the tested `b = 4, k = 2`
configuration. -/
theorem quantize_vs_uniform_zero_tensor_witness :
    (∀ x ∈ ([⟨0, 5⟩] : List F), F.eqv x (F.ofInt 0)) ∧
    quantize_APoT [⟨0, 5⟩] 4 2 =
      .ok (quantize_per_tensor [⟨0, 5⟩] (F.ofInt 1) 0) :=
  ⟨by decide, quantize_vs_uniform_zero_tensor [⟨0, 5⟩] 4 2 (by decide)
    (by decide) (by decide) (by decide)⟩

end APoT

/-!
Embedding of `BaseDataSparsifier`
(`torch/ao/sparsity/experimental/data_sparsifier/base_data_sparsifier.py`).

Names are strings; tensors are flat lists of fractions.  The internal
`_Container` module is an association list from names to parameters; a
parameter entry records the `original` weight and, when the name is
parametrized, the `FakeSparsity` mask attached to it (the parametrization
class of `...sparsifier.utils`, which multiplies the weight elementwise by
the mask).  `self.state` maps a name to the mask stored under its `'mask'`
key, and `self.data_groups` maps a name to its sparsification config.
-/

namespace Sparsifier

abbrev Name := String

abbrev Tensor := List F

/-- An entry of the internal container: the original weight, plus the
`FakeSparsity` mask when the parameter is parametrized. -/
structure ParamEntry where
  original : Tensor
  mask : Option Tensor
  deriving DecidableEq, Repr

/-- A sparsification config; the only config key the base class itself reads
is the optional `'mask'` entry, so other keys are not represented. -/
structure SparseConfig where
  mask : Option Tensor
  deriving DecidableEq, Repr

/-- First-match association-list lookup (Python attribute / dict lookup). -/
def lookupA {κ β : Type} [DecidableEq κ] : List (κ × β) → κ → Option β
  | [], _ => none
  | (m, w) :: rest, n => if m = n then some w else lookupA rest n

/-- Association-list update: replace the first binding of the key, or append
a fresh binding (Python attribute / dict assignment). -/
def updateA {κ β : Type} [DecidableEq κ] : List (κ × β) → κ → β → List (κ × β)
  | [], n, v => [(n, v)]
  | (m, w) :: rest, n, v =>
    if m = n then (n, v) :: rest else (m, w) :: updateA rest n v

/-- The state of a `BaseDataSparsifier` instance. -/
structure DataSparsifier where
  defaults : SparseConfig
  data_groups : List (Name × SparseConfig)
  state : List (Name × Tensor)
  container : List (Name × ParamEntry)
  deriving DecidableEq, Repr

/-- The SUPPORTED_TYPES of the source: raw tensors, parameters, and
embedding / embedding-bag modules (represented by their weight). -/
inductive SparseData where
  | tensor (t : Tensor)
  | parameter (t : Tensor)
  | embedding (weight : Tensor)
  deriving DecidableEq, Repr

def _extract_weight : SparseData → Tensor
  | .tensor t => t
  | .parameter t => t
  | .embedding w => w

/-- The `torch.ones_like` of a flat tensor. -/
def onesLike (t : Tensor) : Tensor := t.map (fun _ => F.ofInt 1)

/-- Python `dict.update`-style merge of a config onto the defaults: keys
present in `config` win. -/
def mergeConfig (d c : SparseConfig) : SparseConfig :=
  ⟨match c.mask with
   | some m => some m
   | none => d.mask⟩

/-- Embeds `parametrize.is_parametrized(self._container, name)`. -/
def is_parametrized (c : List (Name × ParamEntry)) (name : Name) : Bool :=
  match lookupA c name with
  | some e => e.mask.isSome
  | none => false

/-- The forward pass of the `FakeSparsity` parametrization: elementwise
product of the weight with the mask (identity when not parametrized). -/
def applyParam (e : ParamEntry) : Tensor :=
  match e.mask with
  | none => e.original
  | some m => List.zipWith (fun a b => a.mul b) e.original m

/-- Embeds `remove_parametrizations(self._container, name, leave_parametrized)`,
restricted to the parametrized case (the only way the source calls it from
`add_data`): `leave_parametrized = false` keeps the original weight. -/
def squashOne (c : List (Name × ParamEntry)) (name : Name)
    (leave_parametrized : Bool) : List (Name × ParamEntry) :=
  match lookupA c name with
  | some e =>
    if e.mask.isSome then
      updateA c name
        ⟨if leave_parametrized then applyParam e else e.original, none⟩
    else c
  | none => c

/-- Embeds `squash_mask(names = ..., leave_parametrized = ...)`: removes the
parametrizations of the given names (all data-group names when none are
given). -/
def squash_mask (s : DataSparsifier) (leave_parametrized : Bool)
    (names : Option (List Name)) : DataSparsifier :=
  let ns := names.getD (s.data_groups.map Prod.fst)
  { s with
    container := ns.foldl (fun c n => squashOne c n leave_parametrized)
        s.container }

/-- Embeds `add_data(name, data, **config)`: records the merged config under the
name, extracts the weight, squashes an existing parametrization (without
applying the mask) and overwrites the weight when the name already exists,
registers a fresh `FakeSparsity(mask)` parametrization, and stores the mask
in `self.state[name]['mask']`. -/
def add_data (s : DataSparsifier) (name : Name) (data : SparseData)
    (config : SparseConfig) : DataSparsifier :=
  let local_args := mergeConfig s.defaults config
  let dgs := updateA s.data_groups name local_args
  let weight := _extract_weight data
  let mask := local_args.mask.getD (onesLike weight)
  let c1 :=
    if (lookupA s.state name).isSome then
      let csq :=
        if is_parametrized s.container name then squashOne s.container name false
        else s.container
      updateA csq name ⟨weight, none⟩
    else
      updateA s.container name ⟨weight, none⟩
  let c2 := updateA c1 name ⟨weight, some mask⟩
  { s with
    data_groups := dgs
    state := updateA s.state name mask
    container := c2 }

/-- Embeds `get_data(name, return_original)`.  The second component is the
sparsifier after the call: the method only reads, and in particular its two
`ValueError` paths leave the state unchanged. -/
def get_data (s : DataSparsifier) (name : Name) (return_original : Bool) :
    Except String Tensor × DataSparsifier :=
  if (lookupA s.data_groups name).isNone then
    (.error "data with specified name does not exist", s)
  else if return_original then
    if is_parametrized s.container name then
      match lookupA s.container name with
      | some e => (.ok e.original, s)
      | none => (.error "attribute error", s)
    else
      (.error "mask squashed - original mask value does not exist", s)
  else
    match lookupA s.container name with
    | some e => (.ok (applyParam e), s)
    | none => (.error "attribute error", s)

/-- Keys of the flat `state_dict()` of the container module: a plain
attribute name, or the mangled `parametrizations.{name}.original` key of a
parametrized weight (parameter names never contain a dot, so the two forms
never collide; the sum type captures exactly that). -/
inductive SDKey where
  | plain (n : Name)
  | parametrizedOriginal (n : Name)
  deriving DecidableEq, Repr

/-- Embeds `self._container.state_dict()`: parametrized entries appear under
`parametrizations.{name}.original` with the original weight, plain entries
under their own name. -/
def containerStateDict (c : List (Name × ParamEntry)) :
    List (SDKey × Tensor) :=
  c.map (fun p =>
    match p.2.mask with
    | none => (SDKey.plain p.1, p.2.original)
    | some _ => (SDKey.parametrizedOriginal p.1, p.2.original))

/-- The value returned by `state_dict()`. -/
structure SparsifierState where
  state : List (Name × Tensor)
  data_groups : List (Name × SparseConfig)
  container_sd : List (SDKey × Tensor)
  deriving DecidableEq, Repr

/-- Embeds `state_dict()`: state (name-to-mask mapping), data groups, and the
container's own state dict. -/
def state_dict (s : DataSparsifier) : SparsifierState :=
  { state := s.state, data_groups := s.data_groups,
    container_sd := containerStateDict s.container }

/-- Embeds `_load_container_from_state(states, data_groups, container_state_dict)`:
walks the saved states in order; every name must have a config in the saved
data groups and a weight in the container state dict (plain key first, then
the parametrized key, re-registering a `FakeSparsity` parametrization with
the saved mask), else a `RuntimeError`.  The accumulator is the container
being mutated. -/
def _load_container_from_state (dgs : List (Name × SparseConfig))
    (csd : List (SDKey × Tensor)) :
    List (Name × Tensor) → List (Name × ParamEntry) →
    Except String (List (Name × ParamEntry))
  | [], c => .ok c
  | (name, mask) :: rest, c =>
    match lookupA dgs name with
    | none => .error ("Error loading " ++ name)
    | some _ =>
      match lookupA csd (SDKey.plain name) with
      | some data =>
        _load_container_from_state dgs csd rest
          (updateA c name ⟨data, none⟩)
      | none =>
        match lookupA csd (SDKey.parametrizedOriginal name) with
        | some data =>
          _load_container_from_state dgs csd rest
            (updateA c name ⟨data, some mask⟩)
        | none => .error ("Error loading " ++ name)

/-- Python `dict.update`: bindings of `r` override bindings of `l`. -/
def mergeA {κ β : Type} [DecidableEq κ] (l r : List (κ × β)) :
    List (κ × β) :=
  r.foldl (fun acc p => updateA acc p.1 p.2) l

/-- Embeds `load_state_dict(state_dict, strict)`: with `strict = true` the container
is reset before loading and the saved state and data groups replace the
current ones; with `strict = false` the current container is extended and
current entries win over saved ones. -/
def load_state_dict (s : DataSparsifier) (sd : SparsifierState)
    (strict : Bool) : Except String DataSparsifier :=
  let c0 := if strict then [] else s.container
  match _load_container_from_state sd.data_groups sd.container_sd sd.state c0 with
  | .error e => .error e
  | .ok c =>
    if strict then
      .ok { s with
        container := c
        state := sd.state
        data_groups := sd.data_groups }
    else
      .ok { s with
        container := c
        state := mergeA sd.state s.state
        data_groups := mergeA sd.data_groups s.data_groups }

end Sparsifier

namespace Sparsifier

theorem lookupA_updateA_self {κ β : Type} [DecidableEq κ]
    (l : List (κ × β)) (n : κ) (v : β) :
    lookupA (updateA l n v) n = some v := by
  induction l with
  | nil => simp [updateA, lookupA]
  | cons p rest ih =>
    obtain ⟨m, w⟩ := p
    by_cases h : m = n
    · simp [updateA, h, lookupA]
    · simp [updateA, h, lookupA, ih]

theorem keys_updateA {κ β : Type} [DecidableEq κ]
    (l : List (κ × β)) (n : κ) (v : β) :
    (updateA l n v).map Prod.fst =
      if n ∈ l.map Prod.fst then l.map Prod.fst
      else l.map Prod.fst ++ [n] := by
  induction l with
  | nil => simp [updateA]
  | cons p rest ih =>
    obtain ⟨m, w⟩ := p
    by_cases h : m = n
    · subst h
      simp [updateA]
    · by_cases h2 : n ∈ rest.map Prod.fst <;>
        simp [updateA, h, ih, h2, List.mem_cons, Ne.symm h]

theorem nodup_keys_updateA {κ β : Type} [DecidableEq κ]
    {l : List (κ × β)} (n : κ) (v : β) (h : (l.map Prod.fst).Nodup) :
    ((updateA l n v).map Prod.fst).Nodup := by
  rw [keys_updateA]
  split
  · exact h
  case isFalse h2 =>
    refine List.Nodup.append h (List.nodup_singleton n) ?_
    intro a ha hb
    rw [List.mem_singleton] at hb
    subst hb
    exact h2 ha

theorem lookupA_isSome_iff_mem {κ β : Type} [DecidableEq κ]
    (l : List (κ × β)) (n : κ) :
    (lookupA l n).isSome ↔ n ∈ l.map Prod.fst := by
  induction l with
  | nil => simp [lookupA]
  | cons p rest ih =>
    obtain ⟨m, w⟩ := p
    by_cases h : m = n
    · simp [lookupA, h]
    · simp [lookupA, h, ih, List.mem_cons, Ne.symm h]

theorem keys_squashOne (c : List (Name × ParamEntry)) (name : Name)
    (lp : Bool) : (squashOne c name lp).map Prod.fst = c.map Prod.fst := by
  cases h : lookupA c name with
  | none => simp [squashOne, h]
  | some e =>
    by_cases hm : e.mask.isSome
    · simp only [squashOne, h, hm, if_true]
      rw [keys_updateA, if_pos]
      exact (lookupA_isSome_iff_mem c name).mp (by simp [h])
    · simp [squashOne, h, hm]

/-- C8: `get_data` raises `ValueError` when the name was never added (not in
`data_groups`), raises `ValueError` when `return_original` is requested but
the parametrization was squashed, and in every case (the error cases in
particular) the sparsifier's state is unchanged. -/
theorem get_data_error_handling (s : DataSparsifier) (name : Name)
    (ro : Bool) :
    (lookupA s.data_groups name = none →
      get_data s name ro =
        (.error "data with specified name does not exist", s)) ∧
    ((lookupA s.data_groups name).isSome →
      is_parametrized s.container name = false →
      get_data s name true =
        (.error "mask squashed - original mask value does not exist", s)) ∧
    (get_data s name ro).2 = s := by
  refine ⟨?_, ?_, ?_⟩
  · intro h
    unfold get_data
    rw [if_pos (by simp [h])]
  · intro h1 h2
    obtain ⟨cfg, hcfg⟩ := Option.isSome_iff_exists.mp h1
    simp [get_data, hcfg, h2]
  · unfold get_data
    split
    · rfl
    · split
      · split
        · split <;> rfl
        · rfl
      · split <;> rfl

/-- C8 witness: a name that was never added is rejected, and a squashed name
is rejected on `return_original = true`; both leave the sparsifier intact. -/
theorem get_data_error_handling_witness :
    get_data ⟨⟨none⟩, [], [], []⟩ "w" true =
      (.error "data with specified name does not exist",
        (⟨⟨none⟩, [], [], []⟩ : DataSparsifier)) ∧
    get_data ⟨⟨none⟩, [("w", ⟨none⟩)], [("w", [])], [("w", ⟨[], none⟩)]⟩
        "w" true =
      (.error "mask squashed - original mask value does not exist",
        (⟨⟨none⟩, [("w", ⟨none⟩)], [("w", [])],
          [("w", ⟨[], none⟩)]⟩ : DataSparsifier)) :=
  ⟨(get_data_error_handling ⟨⟨none⟩, [], [], []⟩ "w" true).1 (by decide),
   (get_data_error_handling ⟨⟨none⟩, [("w", ⟨none⟩)], [("w", [])],
     [("w", ⟨[], none⟩)]⟩ "w" true).2.1 (by decide) (by decide)⟩

end Sparsifier

namespace Sparsifier

/-- C9: after a successful `add_data(name, data, ...)`, `name` is a key of
`data_groups`, `self.state[name]` holds the mask, and the container holds a
parametrized parameter under `name` whose original is the extracted weight;
when the name already existed, the entry is overwritten (keys unchanged, no
second entry) and key-uniqueness of the container is preserved. -/
theorem add_data_invariant (s : DataSparsifier) (name : Name)
    (data : SparseData) (config : SparseConfig)
    (hnd : (s.container.map Prod.fst).Nodup) :
    (lookupA (add_data s name data config).data_groups name).isSome ∧
    lookupA (add_data s name data config).state name =
      some ((mergeConfig s.defaults config).mask.getD
        (onesLike (_extract_weight data))) ∧
    lookupA (add_data s name data config).container name =
      some ⟨_extract_weight data,
        some ((mergeConfig s.defaults config).mask.getD
          (onesLike (_extract_weight data)))⟩ ∧
    is_parametrized (add_data s name data config).container name = true ∧
    ((add_data s name data config).container.map Prod.fst).Nodup ∧
    (name ∈ s.container.map Prod.fst →
      (add_data s name data config).container.map Prod.fst =
        s.container.map Prod.fst) := by
  have hdg : (add_data s name data config).data_groups
      = updateA s.data_groups name (mergeConfig s.defaults config) := rfl
  have hst : (add_data s name data config).state
      = updateA s.state name ((mergeConfig s.defaults config).mask.getD
        (onesLike (_extract_weight data))) := rfl
  have hct : (add_data s name data config).container
      = updateA (if (lookupA s.state name).isSome then
          updateA (if is_parametrized s.container name
            then squashOne s.container name false else s.container)
            name ⟨_extract_weight data, none⟩
        else updateA s.container name ⟨_extract_weight data, none⟩)
        name ⟨_extract_weight data,
          some ((mergeConfig s.defaults config).mask.getD
            (onesLike (_extract_weight data)))⟩ := rfl
  refine ⟨?_, ?_, ?_, ?_, ?_, ?_⟩
  · rw [hdg, lookupA_updateA_self]
    rfl
  · rw [hst, lookupA_updateA_self]
  · rw [hct, lookupA_updateA_self]
  · unfold is_parametrized
    rw [hct, lookupA_updateA_self]
    rfl
  · rw [hct]
    refine nodup_keys_updateA _ _ ?_
    split
    · refine nodup_keys_updateA _ _ ?_
      split
      · rw [keys_squashOne]
        exact hnd
      · exact hnd
    · exact nodup_keys_updateA _ _ hnd
  · intro hmem
    rw [hct]
    have hbase : ∀ c : List (Name × ParamEntry),
        c.map Prod.fst = s.container.map Prod.fst →
        (updateA c name
          (⟨_extract_weight data, none⟩ : ParamEntry)).map Prod.fst =
          s.container.map Prod.fst := by
      intro c hc
      rw [keys_updateA, hc, if_pos hmem]
    have h1 : (if (lookupA s.state name).isSome then
        updateA (if is_parametrized s.container name
          then squashOne s.container name false else s.container)
          name ⟨_extract_weight data, none⟩
      else updateA s.container name
        ⟨_extract_weight data, none⟩).map Prod.fst
        = s.container.map Prod.fst := by
      split
      · refine hbase _ ?_
        split
        · exact keys_squashOne s.container name false
        · rfl
      · exact hbase _ rfl
    rw [keys_updateA, h1, if_pos hmem]

/-- C9 witness: adding a fresh tensor named `w` to an empty sparsifier. -/
theorem add_data_invariant_witness :
    (lookupA (add_data ⟨⟨none⟩, [], [], []⟩ "w"
      (.tensor [⟨1, 0⟩]) ⟨none⟩).data_groups "w").isSome ∧
    lookupA (add_data ⟨⟨none⟩, [], [], []⟩ "w"
        (.tensor [⟨1, 0⟩]) ⟨none⟩).state "w" =
      some ((mergeConfig (⟨none⟩ : SparseConfig) ⟨none⟩).mask.getD
        (onesLike (_extract_weight (.tensor [⟨1, 0⟩])))) ∧
    lookupA (add_data ⟨⟨none⟩, [], [], []⟩ "w"
        (.tensor [⟨1, 0⟩]) ⟨none⟩).container "w" =
      some ⟨_extract_weight (.tensor [⟨1, 0⟩]),
        some ((mergeConfig (⟨none⟩ : SparseConfig) ⟨none⟩).mask.getD
          (onesLike (_extract_weight (.tensor [⟨1, 0⟩]))))⟩ ∧
    is_parametrized (add_data ⟨⟨none⟩, [], [], []⟩ "w"
      (.tensor [⟨1, 0⟩]) ⟨none⟩).container "w" = true ∧
    ((add_data ⟨⟨none⟩, [], [], []⟩ "w"
      (.tensor [⟨1, 0⟩]) ⟨none⟩).container.map Prod.fst).Nodup ∧
    ("w" ∈ (([] : List (Name × ParamEntry)).map Prod.fst) →
      (add_data ⟨⟨none⟩, [], [], []⟩ "w"
        (.tensor [⟨1, 0⟩]) ⟨none⟩).container.map Prod.fst =
        ([] : List (Name × ParamEntry)).map Prod.fst) :=
  add_data_invariant ⟨⟨none⟩, [], [], []⟩ "w" (.tensor [⟨1, 0⟩]) ⟨none⟩
    (by decide)

end Sparsifier

namespace Sparsifier

theorem lookupA_eq_some_of_mem {κ β : Type} [DecidableEq κ]
    {l : List (κ × β)} (hnd : (l.map Prod.fst).Nodup) {x : κ × β}
    (hx : x ∈ l) : lookupA l x.1 = some x.2 := by
  induction l with
  | nil => cases hx
  | cons p rest ih =>
    rcases List.mem_cons.mp hx with h | h
    · subst h
      simp [lookupA]
    · have hne : p.1 ≠ x.1 := by
        intro hh
        have : x.1 ∈ rest.map Prod.fst :=
          List.mem_map.mpr ⟨x, h, rfl⟩
        rw [List.map_cons] at hnd
        exact (List.nodup_cons.mp hnd).1 (hh ▸ this)
      have hnd' : (rest.map Prod.fst).Nodup := by
        rw [List.map_cons] at hnd
        exact (List.nodup_cons.mp hnd).2
      obtain ⟨m, w⟩ := p
      simp only [lookupA]
      rw [if_neg hne]
      exact ih hnd' h

theorem updateA_append_of_not_mem {κ β : Type} [DecidableEq κ]
    {l : List (κ × β)} {n : κ} (v : β) (h : n ∉ l.map Prod.fst) :
    updateA l n v = l ++ [(n, v)] := by
  induction l with
  | nil => rfl
  | cons p rest ih =>
    obtain ⟨m, w⟩ := p
    have hmn : m ≠ n := by
      intro hh
      exact h (by simp [hh])
    have hrest : n ∉ rest.map Prod.fst := fun hh => h (by simp [hh])
    simp [updateA, hmn, ih hrest]

theorem lookupA_csd_not_mem_plain (C : List (Name × ParamEntry)) (n : Name)
    (h : n ∉ C.map Prod.fst) :
    lookupA (containerStateDict C) (SDKey.plain n) = none := by
  induction C with
  | nil => rfl
  | cons p rest ih =>
    obtain ⟨m, e⟩ := p
    have hmn : m ≠ n := by
      intro hh
      exact h (by simp [hh])
    have hrest : n ∉ rest.map Prod.fst := fun hh => h (by simp [hh])
    cases hm : e.mask with
    | none =>
      simp only [containerStateDict, List.map_cons, hm, lookupA]
      rw [if_neg (by simp [hmn])]
      exact ih hrest
    | some mk =>
      simp only [containerStateDict, List.map_cons, hm, lookupA]
      rw [if_neg (by simp)]
      exact ih hrest

theorem lookupA_csd_plain_of_mask_none (C : List (Name × ParamEntry))
    (n : Name) (e : ParamEntry) (h : lookupA C n = some e)
    (hm : e.mask = none) :
    lookupA (containerStateDict C) (SDKey.plain n) = some e.original := by
  induction C with
  | nil => simp [lookupA] at h
  | cons p rest ih =>
    obtain ⟨m, e0⟩ := p
    by_cases hmn : m = n
    · subst hmn
      have he : e0 = e := by simpa [lookupA] using h
      subst he
      simp [containerStateDict, lookupA, hm]
    · have h' : lookupA rest n = some e := by simpa [lookupA, hmn] using h
      cases hm0 : e0.mask with
      | none =>
        simp only [containerStateDict, List.map_cons, hm0, lookupA]
        rw [if_neg (by simp [hmn])]
        exact ih h'
      | some mk =>
        simp only [containerStateDict, List.map_cons, hm0, lookupA]
        rw [if_neg (by simp)]
        exact ih h'

theorem lookupA_csd_param_of_mask_some (C : List (Name × ParamEntry))
    (n : Name) (e : ParamEntry) (m' : Tensor) (h : lookupA C n = some e)
    (hm : e.mask = some m') :
    lookupA (containerStateDict C) (SDKey.parametrizedOriginal n) =
      some e.original := by
  induction C with
  | nil => simp [lookupA] at h
  | cons p rest ih =>
    obtain ⟨m, e0⟩ := p
    by_cases hmn : m = n
    · subst hmn
      have he : e0 = e := by simpa [lookupA] using h
      subst he
      simp [containerStateDict, lookupA, hm]
    · have h' : lookupA rest n = some e := by simpa [lookupA, hmn] using h
      cases hm0 : e0.mask with
      | none =>
        simp only [containerStateDict, List.map_cons, hm0, lookupA]
        rw [if_neg (by simp)]
        exact ih h'
      | some mk =>
        simp only [containerStateDict, List.map_cons, hm0, lookupA]
        rw [if_neg (by simp [hmn])]
        exact ih h'

theorem lookupA_csd_plain_of_mask_some (C : List (Name × ParamEntry))
    (hnd : (C.map Prod.fst).Nodup) (n : Name) (e : ParamEntry) (m' : Tensor)
    (h : lookupA C n = some e) (hm : e.mask = some m') :
    lookupA (containerStateDict C) (SDKey.plain n) = none := by
  induction C with
  | nil => simp [lookupA] at h
  | cons p rest ih =>
    obtain ⟨m, e0⟩ := p
    have hnd' : (m :: rest.map Prod.fst).Nodup := by
      simpa only [List.map_cons] using hnd
    have hnd2 := List.nodup_cons.mp hnd'
    by_cases hmn : m = n
    · subst hmn
      have he : e0 = e := by simpa [lookupA] using h
      subst he
      simp only [containerStateDict, List.map_cons, hm, lookupA]
      rw [if_neg (by simp)]
      exact lookupA_csd_not_mem_plain rest m hnd2.1
    · have h' : lookupA rest n = some e := by simpa [lookupA, hmn] using h
      cases hm0 : e0.mask with
      | none =>
        simp only [containerStateDict, List.map_cons, hm0, lookupA]
        rw [if_neg (by simp [hmn])]
        exact ih hnd2.2 h'
      | some mk =>
        simp only [containerStateDict, List.map_cons, hm0, lookupA]
        rw [if_neg (by simp)]
        exact ih hnd2.2 h'

/-- The state-to-container alignment maintained by `add_data`: same names in
the same order, and a parametrized entry's mask is the mask stored in
`self.state`. -/
def containerMatchesState (st : List (Name × Tensor))
    (ct : List (Name × ParamEntry)) : Prop :=
  List.Forall₂
    (fun p q => p.1 = q.1 ∧ ∀ m, q.2.mask = some m → m = p.2) st ct

/-- Well-formedness of a sparsifier: container keys are unique, the container
is aligned with `self.state`, and every stated name has a config. -/
def wf (s : DataSparsifier) : Prop :=
  (s.container.map Prod.fst).Nodup ∧
  containerMatchesState s.state s.container ∧
  ∀ n ∈ s.state.map Prod.fst, (lookupA s.data_groups n).isSome

theorem keys_eq_of_matches {st : List (Name × Tensor)}
    {ct : List (Name × ParamEntry)} (h : containerMatchesState st ct) :
    st.map Prod.fst = ct.map Prod.fst := by
  induction h with
  | nil => rfl
  | cons h₁ h₂ ih => simp [h₁.1, ih]

theorem loader_restores (dgs : List (Name × SparseConfig))
    (C : List (Name × ParamEntry)) (hC : (C.map Prod.fst).Nodup)
    {st : List (Name × Tensor)} {ct : List (Name × ParamEntry)}
    (hmatch : containerMatchesState st ct) :
    ∀ acc : List (Name × ParamEntry),
      (∀ x ∈ ct, lookupA C x.1 = some x.2) →
      (∀ p ∈ st, (lookupA dgs p.1).isSome) →
      (∀ n ∈ acc.map Prod.fst, n ∉ st.map Prod.fst) →
      (st.map Prod.fst).Nodup →
      _load_container_from_state dgs (containerStateDict C) st acc =
        .ok (acc ++ ct) := by
  induction hmatch with
  | nil =>
    intro acc _ _ _ _
    simp [_load_container_from_state]
  | @cons a b strest ctrest h₁ h₂ ih =>
    intro acc hct hdgs hacc hndst
    obtain ⟨n, m⟩ := a
    obtain ⟨n', e⟩ := b
    obtain ⟨hn, hmask⟩ := h₁
    simp only at hn
    subst hn
    have hlookupC : lookupA C n = some e :=
      hct (n, e) (List.mem_cons_self _ _)
    obtain ⟨cfg, hcfg⟩ := Option.isSome_iff_exists.mp
      (hdgs (n, m) (List.mem_cons_self _ _))
    have hnacc : n ∉ acc.map Prod.fst := by
      intro hh
      exact hacc n hh (by simp)
    have hndst' : (n :: strest.map Prod.fst).Nodup := by
      simpa only [List.map_cons] using hndst
    have hndst2 : (strest.map Prod.fst).Nodup := (List.nodup_cons.mp hndst').2
    have hnst : n ∉ strest.map Prod.fst := (List.nodup_cons.mp hndst').1
    have hacc2 : ∀ x : Name × ParamEntry,
        ∀ nn ∈ (acc ++ [x]).map Prod.fst, x.1 = n →
        nn ∉ strest.map Prod.fst := by
      intro x nn hnn hx
      have hnn' : nn ∈ acc.map Prod.fst ++ [x.1] := by
        simpa only [List.map_append, List.map_cons, List.map_nil] using hnn
      rcases List.mem_append.mp hnn' with h | h
      · intro hh
        exact hacc nn h (by simp [hh])
      · rw [List.mem_singleton] at h
        subst h
        rw [hx]
        exact hnst
    cases he : e.mask with
    | none =>
      have hplain := lookupA_csd_plain_of_mask_none C n e hlookupC he
      simp only [_load_container_from_state, hcfg, hplain]
      rw [updateA_append_of_not_mem _ hnacc]
      have hee : (⟨e.original, none⟩ : ParamEntry) = e := by
        cases e
        simp_all
      rw [hee]
      rw [ih (acc ++ [(n, e)])
        (fun x hx => hct x (List.mem_cons_of_mem _ hx))
        (fun p hp => hdgs p (List.mem_cons_of_mem _ hp))
        (fun nn hnn => hacc2 (n, e) nn hnn rfl) hndst2]
      simp
    | some mk =>
      have hmk : mk = m := hmask mk he
      subst hmk
      have hplain := lookupA_csd_plain_of_mask_some C hC n e mk hlookupC he
      have hparam := lookupA_csd_param_of_mask_some C n e mk hlookupC he
      simp only [_load_container_from_state, hcfg, hplain, hparam]
      rw [updateA_append_of_not_mem _ hnacc]
      have hee : (⟨e.original, some mk⟩ : ParamEntry) = e := by
        cases e
        simp_all
      rw [hee]
      rw [ih (acc ++ [(n, e)])
        (fun x hx => hct x (List.mem_cons_of_mem _ hx))
        (fun p hp => hdgs p (List.mem_cons_of_mem _ hp))
        (fun nn hnn => hacc2 (n, e) nn hnn rfl) hndst2]
      simp

/-- C10: on a well-formed sparsifier, `load_state_dict(state_dict(), strict
= true)` is a round-trip: the container is reset and rebuilt equal to the
original, and state and data groups are restored unchanged. -/
theorem load_state_dict_roundtrip (s : DataSparsifier) (h : wf s) :
    load_state_dict s (state_dict s) true = .ok s := by
  obtain ⟨hnd, hmatch, hdgs⟩ := h
  have hkeys : s.state.map Prod.fst = s.container.map Prod.fst :=
    keys_eq_of_matches hmatch
  have hload := loader_restores s.data_groups s.container hnd hmatch []
    (fun x hx => lookupA_eq_some_of_mem hnd hx)
    (fun p hp => hdgs p.1 (List.mem_map.mpr ⟨p, hp, rfl⟩))
    (by simp)
    (hkeys ▸ hnd)
  rw [List.nil_append] at hload
  simp only [load_state_dict, state_dict, if_true]
  rw [hload]

/-- C10 witness: a concrete well-formed sparsifier with one parametrized and
one squashed entry round-trips. -/
theorem load_state_dict_roundtrip_witness :
    load_state_dict
      ⟨⟨none⟩, [("a", ⟨none⟩), ("b", ⟨none⟩)],
        [("a", [⟨1, 0⟩]), ("b", [⟨1, 1⟩])],
        [("a", ⟨[⟨2, 0⟩], some [⟨1, 0⟩]⟩), ("b", ⟨[⟨3, 0⟩], none⟩)]⟩
      (state_dict
        ⟨⟨none⟩, [("a", ⟨none⟩), ("b", ⟨none⟩)],
          [("a", [⟨1, 0⟩]), ("b", [⟨1, 1⟩])],
          [("a", ⟨[⟨2, 0⟩], some [⟨1, 0⟩]⟩), ("b", ⟨[⟨3, 0⟩], none⟩)]⟩)
      true =
    .ok ⟨⟨none⟩, [("a", ⟨none⟩), ("b", ⟨none⟩)],
      [("a", [⟨1, 0⟩]), ("b", [⟨1, 1⟩])],
      [("a", ⟨[⟨2, 0⟩], some [⟨1, 0⟩]⟩), ("b", ⟨[⟨3, 0⟩], none⟩)]⟩ :=
  load_state_dict_roundtrip _
    ⟨by decide,
     List.Forall₂.cons ⟨rfl, fun m hm => (Option.some.inj hm).symm⟩
       (List.Forall₂.cons ⟨rfl, fun m hm => Option.noConfusion hm⟩
         List.Forall₂.nil),
     by decide⟩

end Sparsifier
